import Mathlib

set_option synthInstance.maxSize 2000

/-!
Shallow embedding of `src/utilities.py` (CoNLL corpus I/O, epoch statistics
accumulation, classification-report rendering) and proofs about the claims
of the specification.

Modelling conventions:
* Python strings are `List Char`; a file is its list of lines (the code
  writes line-by-line and `csv.reader` consumes the file line-by-line).
* Python floats are `ℚ` (the claims are about which values are aggregated,
  not about rounding); `numpy`'s `nan` result of `np.mean([])` is `none`.
* Fallible Python code (exceptions) is `Option`/`Except`.
-/

namespace NerUtils

instance {ε α : Type} [DecidableEq ε] [DecidableEq α] :
    DecidableEq (Except ε α) := fun x y =>
  match x, y with
  | Except.ok a, Except.ok b =>
    if h : a = b then isTrue (congrArg Except.ok h)
    else isFalse (fun hx => h (Except.ok.inj hx))
  | Except.error e, Except.error f =>
    if h : e = f then isTrue (congrArg Except.error h)
    else isFalse (fun hx => h (Except.error.inj hx))
  | Except.ok _, Except.error _ => isFalse (fun hx => Except.noConfusion hx)
  | Except.error _, Except.ok _ => isFalse (fun hx => Except.noConfusion hx)

abbrev Token := List Char
abbrev Line := List Char

/-- ASCII whitespace stripped by Python's `str.strip()`. -/
def isWS (c : Char) : Bool :=
  c = ' ' || c = '\t' || c = '\n' || c = '\r' || c = '\x0b' || c = '\x0c'

/-- Python `str.strip()`: drop whitespace from both ends. -/
def pyStrip (s : List Char) : List Char :=
  ((s.dropWhile isWS).reverse.dropWhile isWS).reverse

/-- One line as seen by `csv.reader(..., delimiter=delim, quoting=QUOTE_NONE)`:
a blank line yields no fields, any other line is split on the delimiter. -/
def parseLine (delim : Char) (line : Line) : List (List Char) :=
  if line = [] then [] else line.splitOn delim

/-- `read_conll.is_empty_line`: every field strips to the empty string. -/
def is_empty_line (line_pack : List (List Char)) : Bool :=
  line_pack.all (fun field => pyStrip field = [])

/-- Emit the accumulated run (kept in reverse) as a group, if non-empty. -/
def flushRun {α : Type} (cur : List α) : List (List α) :=
  match cur with
  | [] => []
  | _ => [cur.reverse]

/-- One pass of `itertools.groupby(reader, is_empty_line)` keeping only the
groups whose key is `false`, as `read_conll`'s loop does; `cur` holds the
current run of non-separator rows in reverse. -/
def splitBlocksAux {α : Type} (p : α → Bool) (cur : List α) :
    List α → List (List α)
  | [] => flushRun cur
  | x :: xs =>
    if p x then flushRun cur ++ splitBlocksAux p [] xs
    else splitBlocksAux p (x :: cur) xs

/-- The maximal runs of elements not satisfying `p` (the non-empty blocks). -/
def splitBlocks {α : Type} (p : α → Bool) (l : List α) : List (List α) :=
  splitBlocksAux p [] l

/-- Length of Python's `zip(*ls)`: the minimum of the lengths (and `0` when
there is no argument at all). -/
def zipWidth {α : Type} (ls : List (List α)) : Nat :=
  match ls with
  | [] => 0
  | x :: xs => xs.foldl (fun n l => min n l.length) x.length

/-- Python's `[list(field) for field in zip(*ls)]`: the truncating transpose.
The default `d` is never read (every index stays below every length). -/
def zipT {α : Type} (d : α) (ls : List (List α)) : List (List α) :=
  (List.range (zipWidth ls)).map (fun j => ls.map (fun row => row.getD j d))

/-- The rows of the file after csv parsing. -/
def parsedRows (delim : Char) (lines : List Line) : List (List (List Char)) :=
  lines.map (parseLine delim)

/-- The non-empty blocks of the file (runs of non-blank rows). -/
def conllBlocks (delim : Char) (lines : List Line) :
    List (List (List (List Char))) :=
  splitBlocks is_empty_line (parsedRows delim lines)

/-- `data = list(zip(*data))` applied to the per-block transposes: entry `c`
is the list, over the blocks, of block column `c`. -/
def transposedData (delim : Char) (lines : List Line) :
    List (List (List Token)) :=
  zipT [] ((conllBlocks delim lines).map (zipT []))

/-- A Corpus Dataset: column name ↦ samples, each sample a list of tokens.
Python dicts preserve insertion order, so an association list. -/
abbrev Dataset := List (String × List (List Token))

/-- `read_conll`, with the file given as its list of lines.  The final dict
comprehension raises `IndexError` when a requested column index is out of
range of the truncated transpose; this is the `Except.error` case. -/
def read_conll (lines : List Line) (columns : List (String × Nat))
    (delim : Char) : Except Unit Dataset :=
  columns.mapM (fun nc =>
    match (transposedData delim lines).get? nc.2 with
    | some col => Except.ok (nc.1, col)
    | none => Except.error ())

/-- `write_conll`, producing the list of written lines (one final blank line
per sample).  Python raises (`KeyError`/`IndexError`) on a missing column
name or a too-short column; this is the `none` case. -/
def write_conll (data : Dataset) (colnames : List String) (delim : Char) :
    Option (List Line) := do
  let any_key ← colnames.head?
  let first ← List.lookup any_key data
  let chunks ← (List.range first.length).mapM (fun sample_i => do
    let rows ← (List.range (first.getD sample_i []).length).mapM
      (fun token_i =>
        colnames.mapM (fun col => do
          let colData ← List.lookup col data
          let sample ← colData.get? sample_i
          sample.get? token_i))
    pure ((rows.map (List.intercalate [delim])) ++ [([] : Line)]))
  pure chunks.flatten

/-- The column spec `read_conll` needs to invert `write_conll`'s layout:
each name mapped to its position in the emitted column order. -/
def columnsSpecOf (colnames : List String) : List (String × Nat) :=
  colnames.enum.map (fun p => (p.2, p.1))

/-! ## Epoch Statistics Accumulator (`EpochStats`) -/

/-- One element of the stored `preds`/`golds` Python lists: current runs
append a nested list of class ids per sample, legacy saved state holds
flat integers. -/
inductive PyElem : Type where
  | int (n : Nat)
  | nested (l : List Nat)
deriving DecidableEq, Repr

/-- `EpochStats.__init__`: all accumulators start empty. -/
structure EpochStats : Type where
  sizes : List Nat := []
  losses : List ℚ := []
  ner_losses : List ℚ := []
  dep_losses : List ℚ := []
  probs : List (List ℚ) := []
  preds : List PyElem := []
  golds : List PyElem := []
deriving DecidableEq, Repr

/-- `EpochStats.loss_step`: append the three scalars and the batch size. -/
def EpochStats.loss_step (st : EpochStats) (loss ner_loss dep_loss : ℚ)
    (batch_size : Nat) : EpochStats :=
  { st with
    losses := st.losses ++ [loss]
    ner_losses := st.ner_losses ++ [ner_loss]
    dep_losses := st.dep_losses ++ [dep_loss]
    sizes := st.sizes ++ [batch_size] }

/-- `torch.max` over the class dimension of one token: the maximal score and
the first index attaining it (`none` only for an empty class dimension,
where torch raises). -/
def tokenMax : List ℚ → Option (ℚ × Nat)
  | [] => none
  | x :: xs =>
    match tokenMax xs with
    | none => some (x, 0)
    | some (m, i) => if m ≤ x then some (x, 0) else some (m, i + 1)

/-- Total version of `tokenMax` (torch would raise on the `[]` case; the
theorems only use inputs with a non-empty class dimension). -/
def tokenMaxD (scores_t : List ℚ) : ℚ × Nat := (tokenMax scores_t).getD (0, 0)

/-- Boolean-mask selection `xs[mask == 1]`: keep, in order, the entries
whose mask value is `1`. -/
def maskSelect {α : Type} (xs : List α) (mask : List Nat) : List α :=
  ((xs.zip mask).filter (fun p => p.2 == 1)).map Prod.fst

/-- `EpochStats.step`.  `scores` is batch × token × class, `target` and
`mask` are batch × token.  First `loss_step` with `len(scores)` as the
batch size, then one append to `probs`/`preds`/`golds` per sample.  Python
indexing `mask[i]`/`target[i]` is modelled with `getD` (the theorems'
hypotheses keep every index in range, as torch's shape checks do). -/
def EpochStats.step (st : EpochStats) (scores : List (List (List ℚ)))
    (target : List (List Nat)) (mask : List (List Nat))
    (loss ner_loss dep_loss : ℚ) : EpochStats :=
  let st1 := st.loss_step loss ner_loss dep_loss scores.length
  let probsM := scores.map (fun s => s.map (fun t => (tokenMaxD t).1))
  let classesM := scores.map (fun s => s.map (fun t => (tokenMaxD t).2))
  (List.range scores.length).foldl (fun acc i =>
    let prob_i := maskSelect (probsM.getD i []) (mask.getD i [])
    let pred_i := maskSelect (classesM.getD i []) (mask.getD i [])
    let gold_i := maskSelect ((target.getD i [])) (mask.getD i [])
    { acc with
      preds := acc.preds ++ [PyElem.nested pred_i]
      golds := acc.golds ++ [PyElem.nested gold_i]
      probs := acc.probs ++ [prob_i] }) st1

/-- `np.mean`: `nan` (here `none`) on an empty list, else the average. -/
def npMean (xs : List ℚ) : Option ℚ :=
  if xs.isEmpty then none else some (xs.sum / xs.length)

/-- `np.min`: raises `ValueError` on an empty list. -/
def npMin (xs : List ℚ) : Except Unit ℚ :=
  match xs with
  | [] => Except.error ()
  | x :: rest => Except.ok (rest.foldl min x)

/-- `np.max`: raises `ValueError` on an empty list. -/
def npMax (xs : List ℚ) : Except Unit ℚ :=
  match xs with
  | [] => Except.error ()
  | x :: rest => Except.ok (rest.foldl max x)

/-- The list comprehension
`[l for l, s in zip(losses, sizes) for _ in range(s)]`. -/
def weightedExpand (losses : List ℚ) (sizes : List Nat) : List ℚ :=
  (losses.zip sizes).flatMap (fun p => List.replicate p.2 p.1)

/-- `EpochStats.loss`: select the loss list by `loss_type`, then
`(np.mean(expanded), np.min(losses), np.max(losses))`.  `np.mean([])` is
`nan` (`none`), while `np.min`/`np.max` of an empty list raise, which makes
the whole call raise. -/
def EpochStats.loss (st : EpochStats) (loss_type : String) :
    Except Unit (Option ℚ × ℚ × ℚ) := do
  let losses :=
    if loss_type = "ner" then st.ner_losses
    else if loss_type = "dep" then st.dep_losses
    else st.losses
  let mn ← npMin losses
  let mx ← npMax losses
  pure (npMean (weightedExpand losses st.sizes), mn, mx)

/-- The weighted mean the specification describes: sum of per-batch loss
times batch size, over the total size. -/
def weightedMeanQ (ls : List ℚ) (ss : List Nat) : ℚ :=
  ((ls.zip ss).map (fun p => p.1 * (p.2 : ℚ))).sum / ((ss.sum : Nat) : ℚ)

/-- The try-block of `_map_to_labels`: nested mapping
`[[index2label[j] for j in i] for i in xs]`.  Iterating a stored flat
integer raises `TypeError` (`Except.error`). -/
def tryNested (index2label : Nat → String) (xs : List PyElem) :
    Except Unit (List (List String)) :=
  xs.mapM (fun e =>
    match e with
    | PyElem.int _ => Except.error ()
    | PyElem.nested l => Except.ok (l.map index2label))

/-- The except-block of `_map_to_labels`: flat mapping
`[index2label[i] for i in xs]`.  Indexing by a stored list raises
`TypeError`, which is not caught. -/
def tryFlat (index2label : Nat → String) (xs : List PyElem) :
    Except Unit (List String) :=
  xs.mapM (fun e =>
    match e with
    | PyElem.int n => Except.ok (index2label n)
    | PyElem.nested _ => Except.error ())

/-- The two possible shapes of `_map_to_labels`' result. -/
inductive Mapped : Type where
  | nested (golds preds : List (List String))
  | flat (golds preds : List String)
deriving DecidableEq

/-- `EpochStats._map_to_labels`: try the nested mapping of golds then preds;
on a `TypeError` fall back to the flat mapping of both. -/
def map_to_labels (index2label : Nat → String) (golds preds : List PyElem) :
    Except Unit Mapped :=
  match (do
      let g ← tryNested index2label golds
      let p ← tryNested index2label preds
      pure (g, p) : Except Unit (List (List String) × List (List String))) with
  | Except.ok gp => Except.ok (Mapped.nested gp.1 gp.2)
  | Except.error _ => do
    let g ← tryFlat index2label golds
    let p ← tryFlat index2label preds
    pure (Mapped.flat g p)

/-! ## Classification-report rendering (`printcr`) -/

/-- The metric row of one class: metric name ↦ value (insertion-ordered
Python dict). -/
abbrev Measures := List (String × ℚ)

/-- A Classification Report: class label ↦ its measures. -/
abbrev Report := List (String × Measures)

/-- The fixed `headers` list of `printcr`. -/
def crHeaders : List String :=
  ["classes", "precision", "recall", "f1-score", "support"]

/-- One rendered table cell: the class-name column or a numeric column. -/
inductive Cell : Type where
  | str (s : String)
  | num (q : ℚ)
deriving DecidableEq, Repr

abbrev Row := List Cell

def reportLookup (report : Report) (c : String) : Option Measures :=
  List.lookup c report

/-- The sort key `report[c]['support']` (Python would raise `KeyError` on a
class without a support entry; the theorems' hypotheses rule that out, so
the `0` default is never read). -/
def supportOf (report : Report) (c : String) : ℚ :=
  ((reportLookup report c).bind (List.lookup "support")).getD 0

/-- Stable insertion: `x` goes after every leading `y` with `le y x`. -/
def insertLe {α : Type} (le : α → α → Bool) (x : α) : List α → List α
  | [] => [x]
  | y :: ys => if le y x then y :: insertLe le x ys else x :: y :: ys

/-- Python's `sorted` with comparator `le` (`le y x` = keep `y` before `x`):
any stable sort computes the same list, so a stable insertion sort. -/
def pySorted {α : Type} (le : α → α → Bool) (l : List α) : List α :=
  l.foldr (insertLe le) []

/-- The body of `printcr`'s row loop for one class: `[c]` followed by the
values of the headers present in `report[c]`, percentage-scaled for
precision/recall/f1-score. -/
def rowFor (c : String) (meas : Measures) : Row :=
  Cell.str c :: crHeaders.filterMap (fun h =>
    match List.lookup h meas with
    | none => none
    | some v =>
      some (Cell.num
        (if h = "precision" ∨ h = "recall" ∨ h = "f1-score" then v * 100
         else v)))

/-- `printcr`, returning the table it tabulates (a blank separator row is
the empty row `[]`).  `report[c]` on a class missing from the report raises
`KeyError` (`Except.error`). -/
def printcr (report : Report) (classes0 : Option (List String))
    (sort_by_support : Bool) : Except Unit (List Row) := do
  let classes1 :=
    match classes0 with
    | some cs => cs
    | none =>
      let ks := (report.map Prod.fst).filter
        (fun k => !(k == "macro avg" || k == "micro avg"))
      if sort_by_support then
        pySorted (fun a b => decide (supportOf report b ≤ supportOf report a)) ks
      else
        pySorted (fun a b => decide (a ≤ b)) ks
  let classes2 :=
    if "macro avg" ∈ classes1 then classes1 else classes1 ++ ["macro avg"]
  let classes3 :=
    if "micro avg" ∈ classes2 then classes2 else classes2 ++ ["micro avg"]
  let rowChunks ← classes3.mapM (fun c =>
    match reportLookup report c with
    | none => Except.error ()
    | some meas =>
      Except.ok ((if c = "macro avg" then [([] : Row)] else []) ++
        [rowFor c meas]))
  pure rowChunks.flatten

/-! ## Concrete sample values used by witnesses and counterexamples -/

/-- A one-batch accumulator history (combined 1, sub-task losses 2 and 3,
batch size 1). -/
def sampleStats : EpochStats := ({} : EpochStats).loss_step 1 2 3 1

/-- The spec's example history: batches of sizes 2 and 3 with combined
losses 1.0 and 2.0. -/
def sampleStats23 : EpochStats :=
  (({} : EpochStats).loss_step 1 0 0 2).loss_step 2 0 0 3

/-- A two-sample batch of per-token class scores (batch, token, class). -/
def sampleScores : List (List (List ℚ)) := [[[1, 3, 2], [5, 4, 0]], [[0, 1, 9]]]

/-- Gold class ids for `sampleScores`. -/
def sampleTarget : List (List Nat) := [[7, 8], [9]]

/-- Token mask for `sampleScores` (second token of sample 0 is padding). -/
def sampleMask : List (List Nat) := [[1, 0], [1]]

/-- A two-column, two-sample dataset used by the round-trip witness. -/
def sampleData : Dataset :=
  [("w", [[['a'], ['b', 'b']], [['c']]]), ("t", [[['X'], ['Y']], [['Z']]])]

/-- A small classification report used by the rendering witness. -/
def sampleReport : Report :=
  [("B", [("precision", 1), ("recall", 1), ("f1-score", 1), ("support", 5)]),
   ("macro avg",
    [("precision", 1), ("recall", 1), ("f1-score", 1), ("support", 99)]),
   ("A", [("precision", 1), ("recall", 1), ("f1-score", 1), ("support", 7)]),
   ("micro avg",
    [("precision", 1), ("recall", 1), ("f1-score", 1), ("support", 99)])]

/-! ## General-purpose lemmas -/

theorem mapM_ok_of {α β : Type} (f : α → Except Unit β) (g : α → β)
    (l : List α) (h : ∀ x ∈ l, f x = Except.ok (g x)) :
    l.mapM f = Except.ok (l.map g) := by
  induction l with
  | nil => rfl
  | cons x xs ih =>
    rw [List.mapM_cons, h x (by simp), ih (fun y hy => h y (by simp [hy]))]
    rfl

theorem mapM_some_of {α β : Type} (f : α → Option β) (g : α → β)
    (l : List α) (h : ∀ x ∈ l, f x = some (g x)) :
    l.mapM f = some (l.map g) := by
  induction l with
  | nil => rfl
  | cons x xs ih =>
    rw [List.mapM_cons, h x (by simp), ih (fun y hy => h y (by simp [hy]))]
    rfl

theorem foldl_min_le_init (x : ℚ) (xs : List ℚ) : xs.foldl min x ≤ x := by
  induction xs generalizing x with
  | nil => simp
  | cons y ys ih => exact le_trans (ih (min x y)) (min_le_left x y)

theorem foldl_min_le (x : ℚ) (xs : List ℚ) :
    ∀ y ∈ x :: xs, xs.foldl min x ≤ y := by
  induction xs generalizing x with
  | nil => intro y hy; rw [List.mem_singleton] at hy; simp [hy]
  | cons z zs ih =>
    intro y hy
    rcases List.mem_cons.mp hy with rfl | hy'
    · exact le_trans (foldl_min_le_init (min y z) zs) (min_le_left y z)
    rcases List.mem_cons.mp hy' with rfl | hy''
    · exact le_trans (foldl_min_le_init (min x y) zs) (min_le_right x y)
    · exact ih (min x z) y (List.mem_cons_of_mem _ hy'')

theorem foldl_min_mem (x : ℚ) (xs : List ℚ) : xs.foldl min x ∈ x :: xs := by
  induction xs generalizing x with
  | nil => simp
  | cons y ys ih =>
    rcases List.mem_cons.mp (ih (min x y)) with h | h
    · rcases min_choice x y with hc | hc <;> rw [List.foldl_cons, h, hc] <;> simp
    · exact List.mem_cons_of_mem _ (List.mem_cons_of_mem _ h)

theorem foldl_max_le_init (x : ℚ) (xs : List ℚ) : x ≤ xs.foldl max x := by
  induction xs generalizing x with
  | nil => simp
  | cons y ys ih => exact le_trans (le_max_left x y) (ih (max x y))

theorem foldl_le_max (x : ℚ) (xs : List ℚ) :
    ∀ y ∈ x :: xs, y ≤ xs.foldl max x := by
  induction xs generalizing x with
  | nil => intro y hy; rw [List.mem_singleton] at hy; simp [hy]
  | cons z zs ih =>
    intro y hy
    rcases List.mem_cons.mp hy with rfl | hy'
    · exact le_trans (le_max_left y z) (foldl_max_le_init (max y z) zs)
    rcases List.mem_cons.mp hy' with rfl | hy''
    · exact le_trans (le_max_right x y) (foldl_max_le_init (max x y) zs)
    · exact ih (max x z) y (List.mem_cons_of_mem _ hy'')

theorem foldl_max_mem (x : ℚ) (xs : List ℚ) : xs.foldl max x ∈ x :: xs := by
  induction xs generalizing x with
  | nil => simp
  | cons y ys ih =>
    rcases List.mem_cons.mp (ih (max x y)) with h | h
    · rcases max_choice x y with hc | hc <;> rw [List.foldl_cons, h, hc] <;> simp
    · exact List.mem_cons_of_mem _ (List.mem_cons_of_mem _ h)

/-! ## Loss aggregation lemmas -/

theorem weightedExpand_sum (ls : List ℚ) (ss : List Nat) :
    (weightedExpand ls ss).sum =
      ((ls.zip ss).map (fun p => p.1 * (p.2 : ℚ))).sum := by
  induction ls generalizing ss with
  | nil => simp [weightedExpand]
  | cons a ls ih =>
    cases ss with
    | nil => simp [weightedExpand]
    | cons s ss =>
      have := ih ss
      simp only [weightedExpand, List.zip_cons_cons, List.flatMap_cons,
        List.map_cons, List.sum_cons, List.sum_append, List.sum_replicate,
        nsmul_eq_mul] at this ⊢
      rw [this, mul_comm]

theorem weightedExpand_length (ls : List ℚ) (ss : List Nat)
    (h : ls.length = ss.length) :
    (weightedExpand ls ss).length = ss.sum := by
  induction ls generalizing ss with
  | nil =>
    cases ss with
    | nil => simp [weightedExpand]
    | cons s ss => simp at h
  | cons a ls ih =>
    cases ss with
    | nil => simp at h
    | cons s ss =>
      simp only [List.length_cons, Nat.succ_inj] at h
      have h2 := ih ss h
      simp only [weightedExpand, List.zip_cons_cons, List.flatMap_cons,
        List.length_append, List.length_replicate, List.sum_cons] at h2 ⊢
      omega

theorem npMean_weightedExpand (ls : List ℚ) (ss : List Nat)
    (hlen : ls.length = ss.length) (hpos : 0 < ss.sum) :
    npMean (weightedExpand ls ss) = some (weightedMeanQ ls ss) := by
  have hl := weightedExpand_length ls ss hlen
  have hne : (weightedExpand ls ss).isEmpty = false := by
    cases hE : weightedExpand ls ss with
    | nil => rw [hE] at hl; simp at hl; omega
    | cons x xs => rfl
  rw [npMean, hne]
  simp only [Bool.false_eq_true, if_false, weightedExpand_sum, hl,
    weightedMeanQ]

/-- The `(np.min ls, np.max ls, np.mean expanded)` facts `EpochStats.loss`
needs for a selected loss list. -/
theorem lossTriple (ls : List ℚ) (ss : List Nat)
    (hlen : ls.length = ss.length) (hpos : 0 < ss.sum) :
    ∃ mn mx,
      npMin ls = Except.ok mn ∧ npMax ls = Except.ok mx ∧
      npMean (weightedExpand ls ss) = some (weightedMeanQ ls ss) ∧
      mn ∈ ls ∧ (∀ y ∈ ls, mn ≤ y) ∧ mx ∈ ls ∧ (∀ y ∈ ls, y ≤ mx) := by
  have hsne : ss ≠ [] := by
    intro h; rw [h] at hpos; simp at hpos
  have hlne : ls ≠ [] := by
    intro h
    rw [h] at hlen
    cases ss with
    | nil => exact hsne rfl
    | cons s ss => simp at hlen
  cases ls with
  | nil => exact absurd rfl hlne
  | cons x xs =>
    refine ⟨xs.foldl min x, xs.foldl max x, rfl, rfl,
      npMean_weightedExpand _ ss hlen hpos,
      foldl_min_mem x xs, foldl_min_le x xs,
      foldl_max_mem x xs, foldl_le_max x xs⟩

/-- Evaluation of `EpochStats.loss` once the selected list's `np.min` and
`np.max` are known. -/
theorem loss_eval (st : EpochStats) (ls : List ℚ) (lt : String)
    (hsel : (if lt = "ner" then st.ner_losses
      else if lt = "dep" then st.dep_losses else st.losses) = ls)
    {mn mx : ℚ} (h1 : npMin ls = Except.ok mn) (h2 : npMax ls = Except.ok mx) :
    st.loss lt =
      Except.ok (npMean (weightedExpand ls st.sizes), mn, mx) := by
  unfold EpochStats.loss
  rw [hsel]
  show (npMin ls >>= fun mn => npMax ls >>= fun mx =>
    pure (npMean (weightedExpand ls st.sizes), mn, mx)) = _
  rw [h1, h2]
  rfl

/-- The per-kind statement of claims C2 and C4. -/
theorem loss_stats_of (st : EpochStats) (ls : List ℚ) (lt : String)
    (hsel : (if lt = "ner" then st.ner_losses
      else if lt = "dep" then st.dep_losses else st.losses) = ls)
    (hlen : ls.length = st.sizes.length) (hpos : 0 < st.sizes.sum) :
    ∃ mn mx,
      st.loss lt = Except.ok (some (weightedMeanQ ls st.sizes), mn, mx) ∧
      mn ∈ ls ∧ (∀ y ∈ ls, mn ≤ y) ∧ mx ∈ ls ∧ (∀ y ∈ ls, y ≤ mx) := by
  obtain ⟨mn, mx, h1, h2, h3, hp⟩ := lossTriple ls st.sizes hlen hpos
  exact ⟨mn, mx, by rw [loss_eval st ls lt hsel h1 h2, h3], hp⟩

/-- C2: with at least one recorded batch (of positive total size),
`loss` with the sub-task-A selector (`'ner'` in the code, "a" in the
spec's anonymized naming) returns the size-weighted mean and the min and
max of the recorded sub-task-A loss values; the sub-task-B selector
(`'dep'`) does the same over the sub-task-B values, and the empty-string
selector over the combined values. -/
theorem EpochStats.loss_kind_stats (st : EpochStats)
    (hner : st.ner_losses.length = st.sizes.length)
    (hdep : st.dep_losses.length = st.sizes.length)
    (hall : st.losses.length = st.sizes.length)
    (hpos : 0 < st.sizes.sum) :
    (∃ mn mx,
      st.loss "ner" =
        Except.ok (some (weightedMeanQ st.ner_losses st.sizes), mn, mx) ∧
      mn ∈ st.ner_losses ∧ (∀ y ∈ st.ner_losses, mn ≤ y) ∧
      mx ∈ st.ner_losses ∧ (∀ y ∈ st.ner_losses, y ≤ mx)) ∧
    (∃ mn mx,
      st.loss "dep" =
        Except.ok (some (weightedMeanQ st.dep_losses st.sizes), mn, mx) ∧
      mn ∈ st.dep_losses ∧ (∀ y ∈ st.dep_losses, mn ≤ y) ∧
      mx ∈ st.dep_losses ∧ (∀ y ∈ st.dep_losses, y ≤ mx)) ∧
    (∃ mn mx,
      st.loss "" =
        Except.ok (some (weightedMeanQ st.losses st.sizes), mn, mx) ∧
      mn ∈ st.losses ∧ (∀ y ∈ st.losses, mn ≤ y) ∧
      mx ∈ st.losses ∧ (∀ y ∈ st.losses, y ≤ mx)) :=
  ⟨loss_stats_of st st.ner_losses "ner" (by rw [if_pos rfl]) hner hpos,
   loss_stats_of st st.dep_losses "dep"
     (by rw [if_neg (by decide), if_pos rfl]) hdep hpos,
   loss_stats_of st st.losses ""
     (by rw [if_neg (by decide), if_neg (by decide)]) hall hpos⟩

/-- Witness for C2 at the one-batch history `sampleStats`. -/
theorem EpochStats.loss_kind_stats_witness :
    (sampleStats.ner_losses.length = sampleStats.sizes.length ∧
     sampleStats.dep_losses.length = sampleStats.sizes.length ∧
     sampleStats.losses.length = sampleStats.sizes.length ∧
     0 < sampleStats.sizes.sum) ∧
    (∃ mn mx,
      sampleStats.loss "ner" =
        Except.ok (some (weightedMeanQ sampleStats.ner_losses
          sampleStats.sizes), mn, mx) ∧
      mn ∈ sampleStats.ner_losses ∧
      (∀ y ∈ sampleStats.ner_losses, mn ≤ y) ∧
      mx ∈ sampleStats.ner_losses ∧
      (∀ y ∈ sampleStats.ner_losses, y ≤ mx)) :=
  ⟨⟨by decide, by decide, by decide, by decide⟩,
   (EpochStats.loss_kind_stats sampleStats (by decide) (by decide)
     (by decide) (by decide)).1⟩

/-- C4: for a non-empty history, `loss("")` returns the size-weighted mean
of the combined losses together with their unweighted min and max; in
particular sizes `[2, 3]` with combined losses `[1, 2]` yield
`(8/5, 1, 2)`. -/
theorem EpochStats.loss_weighted_mean (st : EpochStats)
    (hall : st.losses.length = st.sizes.length)
    (hpos : 0 < st.sizes.sum) :
    (∃ mn mx,
      st.loss "" =
        Except.ok (some (weightedMeanQ st.losses st.sizes), mn, mx) ∧
      mn ∈ st.losses ∧ (∀ y ∈ st.losses, mn ≤ y) ∧
      mx ∈ st.losses ∧ (∀ y ∈ st.losses, y ≤ mx)) ∧
    sampleStats23.loss "" = Except.ok (some ((8 : ℚ) / 5), 1, 2) :=
  ⟨loss_stats_of st st.losses ""
     (by rw [if_neg (by decide), if_neg (by decide)]) hall hpos,
   by
    simp [sampleStats23, EpochStats.loss, EpochStats.loss_step, npMin,
      npMax, npMean, weightedExpand, List.replicate]
    norm_num
    rfl⟩

/-- Witness for C4 at the history `sampleStats23` itself. -/
theorem EpochStats.loss_weighted_mean_witness :
    (sampleStats23.losses.length = sampleStats23.sizes.length ∧
     0 < sampleStats23.sizes.sum) ∧
    sampleStats23.loss "" = Except.ok (some ((8 : ℚ) / 5), 1, 2) :=
  ⟨⟨by decide, by decide⟩,
   (EpochStats.loss_weighted_mean sampleStats23 (by decide) (by decide)).2⟩

/-- C5: on an accumulator with no recorded batches, `loss` raises
(`np.min` of an empty sequence raises `ValueError`); it does not return a
value. -/
theorem EpochStats.loss_empty_raises (st : EpochStats) (loss_type : String)
    (h : st.losses = []) (hner : st.ner_losses = [])
    (hdep : st.dep_losses = []) :
    st.loss loss_type = Except.error () := by
  unfold EpochStats.loss
  split
  · rw [hner]; rfl
  · split
    · rw [hdep]; rfl
    · rw [h]; rfl

/-- Witness for C5 at the freshly initialized accumulator. -/
theorem EpochStats.loss_empty_raises_witness :
    (({} : EpochStats).losses = [] ∧ ({} : EpochStats).ner_losses = [] ∧
     ({} : EpochStats).dep_losses = []) ∧
    ({} : EpochStats).loss "" = Except.error () :=
  ⟨⟨rfl, rfl, rfl⟩,
   EpochStats.loss_empty_raises {} "" rfl rfl rfl⟩

/-! ## Label-mapping shape tolerance (`_map_to_labels`) -/

theorem tryNested_nil (m : Nat → String) : tryNested m [] = Except.ok [] :=
  rfl

theorem tryNested_int_cons (m : Nat → String) (g : Nat) (gs : List PyElem) :
    tryNested m (PyElem.int g :: gs) = Except.error () := rfl

theorem tryNested_nested (m : Nat → String) (gn : List (List Nat)) :
    tryNested m (gn.map PyElem.nested) =
      Except.ok (gn.map (fun l => l.map m)) := by
  unfold tryNested
  rw [mapM_ok_of _ (fun e => match e with
      | PyElem.int _ => []
      | PyElem.nested l => l.map m) _ ?_]
  · rw [List.map_map]
    rfl
  · intro x hx
    rcases List.mem_map.mp hx with ⟨l, _, rfl⟩
    rfl

theorem tryFlat_int (m : Nat → String) (gs : List Nat) :
    tryFlat m (gs.map PyElem.int) = Except.ok (gs.map m) := by
  unfold tryFlat
  rw [mapM_ok_of _ (fun e => match e with
      | PyElem.int n => m n
      | PyElem.nested _ => "") _ ?_]
  · rw [List.map_map]
    rfl
  · intro x hx
    rcases List.mem_map.mp hx with ⟨n, _, rfl⟩
    rfl

/-- When the nested mapping raises `TypeError`, `_map_to_labels` falls back
to the flat mapping. -/
theorem map_to_labels_fallback (m : Nat → String) {golds preds : List PyElem}
    (h : (do
        let g ← tryNested m golds
        let p ← tryNested m preds
        pure (g, p) :
        Except Unit (List (List String) × List (List String))) =
      Except.error ()) :
    map_to_labels m golds preds = (do
      let g ← tryFlat m golds
      let p ← tryFlat m preds
      pure (Mapped.flat g p)) := by
  unfold map_to_labels
  rw [h]

/-- C9: label-mapping accepts both storage shapes.  For legacy flat
storage (all stored elements plain ids, at least one present) the nested
mapping's `TypeError` is caught and element-wise flat mapping is applied;
for nested storage the id at `[sample][token]` is mapped positionally to
the label at the same position. -/
theorem map_to_labels_shapes (m : Nat → String) (gs ps : List Nat)
    (gn pn : List (List Nat)) :
    (gs ++ ps ≠ [] →
      map_to_labels m (gs.map PyElem.int) (ps.map PyElem.int) =
        Except.ok (Mapped.flat (gs.map m) (ps.map m))) ∧
    map_to_labels m (gn.map PyElem.nested) (pn.map PyElem.nested) =
      Except.ok (Mapped.nested (gn.map (fun l => l.map m))
        (pn.map (fun l => l.map m))) := by
  constructor
  · intro hne
    have herr : (do
        let g ← tryNested m (gs.map PyElem.int)
        let p ← tryNested m (ps.map PyElem.int)
        pure (g, p) :
        Except Unit (List (List String) × List (List String))) =
        Except.error () := by
      cases gs with
      | cons g gs' => rw [List.map_cons, tryNested_int_cons]; rfl
      | nil =>
        cases ps with
        | nil => simp at hne
        | cons p ps' =>
          rw [List.map_nil, List.map_cons, tryNested_nil,
            tryNested_int_cons]
          rfl
    rw [map_to_labels_fallback m herr, tryFlat_int, tryFlat_int]
    rfl
  · unfold map_to_labels
    rw [tryNested_nested, tryNested_nested]
    rfl

/-- Witness for C9: a flat legacy store `[0]`/`[1]` is flat-mapped. -/
theorem map_to_labels_shapes_witness :
    ([0] ++ [1] ≠ ([] : List Nat)) ∧
    map_to_labels (fun n => toString n) ([0].map PyElem.int)
        ([1].map PyElem.int) =
      Except.ok (Mapped.flat ([0].map (fun n : Nat => toString n))
        ([1].map (fun n : Nat => toString n))) :=
  ⟨by decide,
   (map_to_labels_shapes (fun n => toString n) [0] [1] [] []).1 (by decide)⟩

/-! ## `EpochStats.step` (claim C3) -/

theorem getD_map_lt {α β : Type} (f : α → β) (l : List α) (i : Nat)
    (h : i < l.length) (d : β) (d' : α) :
    (l.map f).getD i d = f (l.getD i d') := by
  rw [List.getD_eq_getElem?_getD, List.getD_eq_getElem?_getD,
    List.getElem?_map, List.getElem?_eq_getElem h]
  rfl

/-- Unrolling the per-sample loop of `EpochStats.step`: a fold of appends
is the concatenation of the per-index entries. -/
theorem step_foldl_unroll (f1 f2 : Nat → List Nat) (f3 : Nat → List ℚ)
    (n : Nat) (acc : EpochStats) :
    (List.range n).foldl (fun a i =>
      { a with
        preds := a.preds ++ [PyElem.nested (f1 i)]
        golds := a.golds ++ [PyElem.nested (f2 i)]
        probs := a.probs ++ [f3 i] }) acc =
    { acc with
      preds := acc.preds ++ (List.range n).map (fun i => PyElem.nested (f1 i))
      golds := acc.golds ++ (List.range n).map (fun i => PyElem.nested (f2 i))
      probs := acc.probs ++ (List.range n).map f3 } := by
  induction n with
  | zero => simp
  | succ k ih =>
    rw [List.range_succ, List.foldl_append, ih]
    simp [List.map_append]

/-- C3: `step` first records a batch of size `len(scores)` via `loss_step`,
then appends, per sample in order, exactly one entry to each of
`preds`/`golds`/`probs`, holding respectively the arg-max class ids, the
gold ids and the arg-max scores at exactly the mask==1 positions, in token
order; earlier entries are preserved in front (so sample order persists
across calls). -/
theorem EpochStats.step_spec (st : EpochStats)
    (scores : List (List (List ℚ))) (target mask : List (List Nat))
    (loss ner_loss dep_loss : ℚ)
    (_hml : mask.length = scores.length)
    (_htl : target.length = scores.length)
    (_hmi : ∀ i, i < scores.length →
      (mask.getD i []).length = (scores.getD i []).length ∧
      (target.getD i []).length = (scores.getD i []).length)
    (_hcls : ∀ s ∈ scores, ∀ t ∈ s, t ≠ []) :
    st.step scores target mask loss ner_loss dep_loss =
      { st with
        sizes := st.sizes ++ [scores.length]
        losses := st.losses ++ [loss]
        ner_losses := st.ner_losses ++ [ner_loss]
        dep_losses := st.dep_losses ++ [dep_loss]
        preds := st.preds ++ (List.range scores.length).map (fun i =>
          PyElem.nested (maskSelect ((scores.getD i []).map
            (fun t => (tokenMaxD t).2)) (mask.getD i [])))
        golds := st.golds ++ (List.range scores.length).map (fun i =>
          PyElem.nested (maskSelect (target.getD i []) (mask.getD i [])))
        probs := st.probs ++ (List.range scores.length).map (fun i =>
          maskSelect ((scores.getD i []).map (fun t => (tokenMaxD t).1))
            (mask.getD i [])) } := by
  simp only [EpochStats.step]
  rw [step_foldl_unroll
    (fun i => maskSelect ((scores.map (fun s => s.map
      (fun t => (tokenMaxD t).2))).getD i []) (mask.getD i []))
    (fun i => maskSelect (target.getD i []) (mask.getD i []))
    (fun i => maskSelect ((scores.map (fun s => s.map
      (fun t => (tokenMaxD t).1))).getD i []) (mask.getD i []))
    scores.length (st.loss_step loss ner_loss dep_loss scores.length)]
  simp only [EpochStats.loss_step]
  have hp : ∀ i ∈ List.range scores.length,
      maskSelect ((scores.map (fun s => s.map
        (fun t => (tokenMaxD t).2))).getD i []) (mask.getD i []) =
      maskSelect ((scores.getD i []).map (fun t => (tokenMaxD t).2))
        (mask.getD i []) := by
    intro i hi
    rw [getD_map_lt _ _ _ (List.mem_range.mp hi)]
  have hq : ∀ i ∈ List.range scores.length,
      maskSelect ((scores.map (fun s => s.map
        (fun t => (tokenMaxD t).1))).getD i []) (mask.getD i []) =
      maskSelect ((scores.getD i []).map (fun t => (tokenMaxD t).1))
        (mask.getD i []) := by
    intro i hi
    rw [getD_map_lt _ _ _ (List.mem_range.mp hi)]
  congr 1
  · rw [List.map_congr_left hq]
  · rw [List.map_congr_left (fun i hi => congrArg PyElem.nested (hp i hi))]


/-- Witness for C3 at a concrete two-sample batch. -/
theorem EpochStats.step_spec_witness :
    (sampleMask.length = sampleScores.length ∧
     sampleTarget.length = sampleScores.length ∧
     (∀ i, i < sampleScores.length →
       (sampleMask.getD i []).length = (sampleScores.getD i []).length ∧
       (sampleTarget.getD i []).length = (sampleScores.getD i []).length) ∧
     (∀ s ∈ sampleScores, ∀ t ∈ s, t ≠ [])) ∧
    ({} : EpochStats).step sampleScores sampleTarget sampleMask 1 2 3 =
      { ({} : EpochStats) with
        sizes := ({} : EpochStats).sizes ++ [sampleScores.length]
        losses := ({} : EpochStats).losses ++ [1]
        ner_losses := ({} : EpochStats).ner_losses ++ [2]
        dep_losses := ({} : EpochStats).dep_losses ++ [3]
        preds := ({} : EpochStats).preds ++
          (List.range sampleScores.length).map (fun i =>
            PyElem.nested (maskSelect ((sampleScores.getD i []).map
              (fun t => (tokenMaxD t).2)) (sampleMask.getD i [])))
        golds := ({} : EpochStats).golds ++
          (List.range sampleScores.length).map (fun i =>
            PyElem.nested (maskSelect (sampleTarget.getD i [])
              (sampleMask.getD i [])))
        probs := ({} : EpochStats).probs ++
          (List.range sampleScores.length).map (fun i =>
            maskSelect ((sampleScores.getD i []).map
              (fun t => (tokenMaxD t).1)) (sampleMask.getD i [])) } :=
  ⟨⟨by decide, by decide, by decide, by decide⟩,
   EpochStats.step_spec {} sampleScores sampleTarget sampleMask 1 2 3
     (by decide) (by decide) (by decide) (by decide)⟩

/-! ## Block-splitting lemmas (`groupby` model) -/

theorem splitBlocksAux_run {α : Type} (p : α → Bool) (b : List α)
    (hb : ∀ x ∈ b, p x = false) :
    ∀ (cur ys : List α),
      splitBlocksAux p cur (b ++ ys) = splitBlocksAux p (b.reverse ++ cur) ys := by
  induction b with
  | nil => intro cur ys; simp
  | cons x b' ih =>
    intro cur ys
    have hx : p x = false := hb x (by simp)
    simp only [List.cons_append, splitBlocksAux, hx, Bool.false_eq_true,
      if_false, List.append_eq]
    rw [ih (fun y hy => hb y (by simp [hy])) (x :: cur) ys]
    simp

theorem splitBlocksAux_sep {α : Type} (p : α → Bool) (s : α)
    (hs : p s = true) (cur ys : List α) :
    splitBlocksAux p cur (s :: ys) =
      flushRun cur ++ splitBlocksAux p [] ys := by
  simp [splitBlocksAux, hs]

theorem flushRun_of_ne_nil {α : Type} (b : List α) (hb : b ≠ []) :
    flushRun b.reverse = [b] := by
  cases hb2 : b.reverse with
  | nil => exact absurd (by simpa using congrArg List.reverse hb2) hb
  | cons z zs =>
    show [(z :: zs).reverse] = [b]
    rw [← hb2, List.reverse_reverse]

theorem splitBlocks_block_sep {α : Type} (p : α → Bool) (b : List α)
    (hb : b ≠ []) (hbp : ∀ x ∈ b, p x = false) (s : α) (hs : p s = true)
    (ys : List α) :
    splitBlocks p (b ++ s :: ys) = b :: splitBlocks p ys := by
  unfold splitBlocks
  rw [splitBlocksAux_run p b hbp [] (s :: ys),
    splitBlocksAux_sep p s hs, List.append_nil, flushRun_of_ne_nil b hb]
  rfl

theorem splitBlocks_single {α : Type} (p : α → Bool) (b : List α)
    (hb : b ≠ []) (hbp : ∀ x ∈ b, p x = false) :
    splitBlocks p b = [b] := by
  unfold splitBlocks
  have h := splitBlocksAux_run p b hbp [] []
  rw [List.append_nil] at h
  rw [h, List.append_nil]
  show flushRun b.reverse = [b]
  exact flushRun_of_ne_nil b hb

theorem splitBlocks_flatten {α : Type} (p : α → Bool) (sep : α)
    (hs : p sep = true) (bs : List (List α))
    (hb : ∀ b ∈ bs, b ≠ [] ∧ ∀ x ∈ b, p x = false) :
    splitBlocks p ((bs.map (fun b => b ++ [sep])).flatten) = bs := by
  induction bs with
  | nil => rfl
  | cons b bs' ih =>
    rw [List.map_cons, List.flatten_cons, List.append_assoc]
    have hb1 := (hb b (by simp)).1
    have hb2 := (hb b (by simp)).2
    rw [show [sep] ++ (bs'.map (fun b => b ++ [sep])).flatten =
      sep :: (bs'.map (fun b => b ++ [sep])).flatten from rfl]
    rw [splitBlocks_block_sep p b hb1 hb2 sep hs,
      ih (fun c hc => hb c (by simp [hc]))]

/-! ## Empty-line semantics (claim C7) -/

theorem mem_of_mem_splitOnP {α : Type} (p : α → Bool) (l : List α) :
    ∀ f ∈ l.splitOnP p, ∀ c ∈ f, c ∈ l ∧ p c = false := by
  induction l with
  | nil =>
    intro f hf c hc
    rw [List.splitOnP_nil] at hf
    rw [List.mem_singleton] at hf
    subst hf
    simp at hc
  | cons x xs ih =>
    intro f hf c hc
    rw [List.splitOnP_cons] at hf
    by_cases hx : p x = true
    · rw [if_pos hx] at hf
      rcases List.mem_cons.mp hf with rfl | hf'
      · simp at hc
      · have := ih f hf' c hc
        exact ⟨List.mem_cons_of_mem _ this.1, this.2⟩
    · rw [if_neg hx] at hf
      rcases hsp : xs.splitOnP p with _ | ⟨h, t⟩
      · exact absurd hsp (List.splitOnP_ne_nil p xs)
      · rw [hsp, List.modifyHead_cons] at hf
        rcases List.mem_cons.mp hf with rfl | hf'
        · rcases List.mem_cons.mp hc with rfl | hc'
          · exact ⟨by simp, Bool.eq_false_iff.mpr hx⟩
          · have := ih h (by rw [hsp]; simp) c hc'
            exact ⟨List.mem_cons_of_mem _ this.1, this.2⟩
        · have := ih f (by rw [hsp]; exact List.mem_cons_of_mem _ hf') c hc
          exact ⟨List.mem_cons_of_mem _ this.1, this.2⟩

theorem pyStrip_eq_nil_of_ws (f : List Char)
    (h : ∀ c ∈ f, isWS c = true) : pyStrip f = [] := by
  unfold pyStrip
  rw [List.dropWhile_eq_nil_iff.mpr h]
  rfl

theorem is_empty_line_iff (pack : List (List Char)) :
    is_empty_line pack = true ↔ ∀ f ∈ pack, pyStrip f = [] := by
  unfold is_empty_line
  rw [List.all_eq_true]
  constructor
  · intro h f hf; exact of_decide_eq_true (h f hf)
  · intro h f hf; exact decide_eq_true (h f hf)

/-- A line made only of delimiters and whitespace parses to an empty line. -/
theorem is_empty_line_of_sep_ws (delim : Char) (line : Line)
    (hsep : ∀ c ∈ line, c = delim ∨ isWS c = true) :
    is_empty_line (parseLine delim line) = true := by
  rw [is_empty_line_iff]
  intro f hf
  unfold parseLine at hf
  by_cases hl : line = []
  · rw [if_pos hl] at hf; simp at hf
  · rw [if_neg hl] at hf
    apply pyStrip_eq_nil_of_ws
    intro c hc
    have hm := mem_of_mem_splitOnP (fun b => b == delim) line f hf c hc
    rcases hsep c hm.1 with rfl | hws
    · exact absurd (by simp) (Bool.eq_false_iff.mp hm.2)
    · exact hws

/-- C7: a csv line is empty exactly when every delimiter-split field trims
to the empty string; in particular a line of only delimiters/whitespace
between two content rows ends the current block, splitting it in two. -/
theorem empty_line_splits_block (delim : Char) (line r1 r2 : Line)
    (hsep : ∀ c ∈ line, c = delim ∨ isWS c = true)
    (h1 : is_empty_line (parseLine delim r1) = false)
    (h2 : is_empty_line (parseLine delim r2) = false) :
    (∀ l : Line, is_empty_line (parseLine delim l) = true ↔
      ∀ f ∈ parseLine delim l, pyStrip f = []) ∧
    is_empty_line (parseLine delim line) = true ∧
    conllBlocks delim [r1, line, r2] =
      [[parseLine delim r1], [parseLine delim r2]] := by
  refine ⟨fun l => is_empty_line_iff (parseLine delim l),
    is_empty_line_of_sep_ws delim line hsep, ?_⟩
  unfold conllBlocks parsedRows
  rw [List.map_cons, List.map_cons, List.map_cons, List.map_nil]
  rw [show [parseLine delim r1, parseLine delim line, parseLine delim r2] =
    [parseLine delim r1] ++ parseLine delim line :: [parseLine delim r2]
    from rfl]
  rw [splitBlocks_block_sep is_empty_line [parseLine delim r1] (by simp)
    (by intro x hx; rw [List.mem_singleton] at hx; rw [hx]; exact h1)
    (parseLine delim line) (is_empty_line_of_sep_ws delim line hsep)
    [parseLine delim r2]]
  rw [splitBlocks_single is_empty_line [parseLine delim r2] (by simp)
    (by intro x hx; rw [List.mem_singleton] at hx; rw [hx]; exact h2)]

/-- Witness for C7: a space-tab line between two one-token rows. -/
theorem empty_line_splits_block_witness :
    ((∀ c ∈ [' ', '\t'], c = '\t' ∨ isWS c = true) ∧
     is_empty_line (parseLine '\t' ['a']) = false ∧
     is_empty_line (parseLine '\t' ['b']) = false) ∧
    (is_empty_line (parseLine '\t' [' ', '\t']) = true ∧
     conllBlocks '\t' [['a'], [' ', '\t'], ['b']] =
       [[parseLine '\t' ['a']], [parseLine '\t' ['b']]]) :=
  ⟨⟨by decide, by decide, by decide⟩,
   ⟨(empty_line_splits_block '\t' [' ', '\t'] ['a'] ['b'] (by decide)
       (by decide) (by decide)).2.1,
    (empty_line_splits_block '\t' [' ', '\t'] ['a'] ['b'] (by decide)
       (by decide) (by decide)).2.2⟩⟩

/-! ## `read_conll` result characterization (claim C6) -/

/-- `read_conll` raises exactly when a requested column index falls outside
the truncated transpose; otherwise it returns the transpose's columns. -/
theorem read_conll_cases (lines : List Line)
    (columns : List (String × Nat)) (delim : Char) :
    (read_conll lines columns delim = Except.error () ↔
      ∃ nc ∈ columns, (transposedData delim lines).length ≤ nc.2) ∧
    (read_conll lines columns delim =
      Except.ok (columns.map (fun nc =>
        (nc.1, (transposedData delim lines).getD nc.2 []))) ∨
     read_conll lines columns delim = Except.error ()) := by
  induction columns with
  | nil =>
    constructor
    · constructor
      · intro h
        rw [show read_conll lines [] delim = Except.ok [] from rfl] at h
        exact Except.noConfusion h
      · intro h; simp at h
    · left; rfl
  | cons nc cols ih =>
    rcases hg : (transposedData delim lines).get? nc.2 with _ | col
    · have hlen : (transposedData delim lines).length ≤ nc.2 :=
        List.get?_eq_none.mp hg
      have hr : read_conll lines (nc :: cols) delim = Except.error () := by
        unfold read_conll
        rw [List.mapM_cons, hg]
        rfl
      constructor
      · constructor
        · intro _; exact ⟨nc, by simp, hlen⟩
        · intro _; exact hr
      · right; exact hr
    · have hlt : nc.2 < (transposedData delim lines).length := by
        by_contra h
        rw [List.get?_eq_none.mpr (Nat.le_of_not_lt h)] at hg
        exact Option.noConfusion hg
      have hgd : (transposedData delim lines).getD nc.2 [] = col := by
        rw [List.getD_eq_getElem?_getD, ← List.get?_eq_getElem?, hg]
        rfl
      have hstep : read_conll lines (nc :: cols) delim =
          (read_conll lines cols delim).bind
            (fun bs => Except.ok ((nc.1, col) :: bs)) := by
        unfold read_conll
        rw [List.mapM_cons, hg]
        rfl
      rcases hrec : read_conll lines cols delim with e | bs
      · cases e
        have h1 := (ih.1).mp hrec
        have hre : read_conll lines (nc :: cols) delim = Except.error () := by
          rw [hstep, hrec]; rfl
        constructor
        · constructor
          · intro _
            rcases h1 with ⟨nc', hm, hl⟩
            exact ⟨nc', List.mem_cons_of_mem _ hm, hl⟩
          · intro _; exact hre
        · right; exact hre
      · have hbs : bs = cols.map (fun nc =>
            (nc.1, (transposedData delim lines).getD nc.2 [])) := by
          rcases ih.2 with h | h
          · rw [hrec] at h; exact (Except.ok.inj h)
          · rw [hrec] at h; exact absurd h (by intro hx; cases hx)
        have hro : read_conll lines (nc :: cols) delim =
            Except.ok ((nc :: cols).map (fun nc =>
              (nc.1, (transposedData delim lines).getD nc.2 []))) := by
          rw [hstep, hrec, hbs, List.map_cons, hgd]
          rfl
        constructor
        · constructor
          · intro h; rw [hro] at h; exact absurd h (by intro hx; cases hx)
          · intro h
            rcases h with ⟨nc', hm, hl⟩
            rcases List.mem_cons.mp hm with rfl | hm'
            · omega
            · have := (ih.1).mpr ⟨nc', hm', hl⟩
              rw [hrec] at this
              exact absurd this (by intro hx; cases hx)
        · left; exact hro

/-- C6 (amended): ragged rows never raise by themselves — the transpose
silently truncates every block to its minimum row width (and the dataset
to the minimum block width); `read` raises an index error exactly when a
requested column index is not covered by that truncated transpose, and
otherwise returns a dataset built from it. -/
theorem read_conll_ragged_behavior (lines : List Line)
    (columns : List (String × Nat)) (delim : Char) :
    (read_conll lines columns delim = Except.error () ↔
      ∃ nc ∈ columns, (transposedData delim lines).length ≤ nc.2) ∧
    (read_conll lines columns delim =
      Except.ok (columns.map (fun nc =>
        (nc.1, (transposedData delim lines).getD nc.2 []))) ∨
     read_conll lines columns delim = Except.error ()) :=
  read_conll_cases lines columns delim

/-- C6 counterexample: a single block with ragged rows (widths 2 and 1);
`read` does not raise for the requested column 0 but silently returns a
dataset that merges the two rows\' first fields into one column. -/
theorem read_conll_ragged_counterexample :
    (parseLine '\t' ['a', '\t', 'b']).length = 2 ∧
    (parseLine '\t' ['c']).length = 1 ∧
    conllBlocks '\t' [['a', '\t', 'b'], ['c']] =
      [[parseLine '\t' ['a', '\t', 'b'], parseLine '\t' ['c']]] ∧
    read_conll [['a', '\t', 'b'], ['c']] [("w", 0)] '\t' =
      Except.ok [("w", [[['a'], ['c']]])] := by decide

/-! ## Transpose lemmas -/

theorem get?_eq_getD {α : Type} (l : List α) (n : Nat) (d : α)
    (h : n < l.length) : l.get? n = some (l.getD n d) := by
  rw [List.get?_eq_getElem?, List.getElem?_eq_getElem h,
    List.getD_eq_getElem l d h]

theorem getD_mem {α : Type} (l : List α) (n : Nat) (d : α)
    (h : n < l.length) : l.getD n d ∈ l := by
  rw [List.getD_eq_getElem l d h]
  exact List.getElem_mem h

theorem getD_of_le {α : Type} (l : List α) (n : Nat) (d : α)
    (h : l.length ≤ n) : l.getD n d = d := by
  rw [List.getD_eq_getElem?_getD, List.getElem?_eq_none h]
  rfl

theorem mem_enum_lt {α : Type} (l : List α) (p : Nat × α)
    (hp : p ∈ l.enum) : p.1 < l.length := by
  rw [List.enum_eq_zip_range] at hp
  exact List.mem_range.mp (List.of_mem_zip hp).1

theorem zipT_length {α : Type} (d : α) (ls : List (List α)) :
    (zipT d ls).length = zipWidth ls := by
  simp [zipT]

theorem zipWidth_of_uniform {α : Type} (ls : List (List α)) (w : Nat)
    (hne : ls ≠ []) (hw : ∀ l ∈ ls, l.length = w) : zipWidth ls = w := by
  cases ls with
  | nil => exact absurd rfl hne
  | cons x xs =>
    show List.foldl (fun n l => min n l.length) x.length xs = w
    rw [hw x (by simp)]
    have : ∀ (ys : List (List α)), (∀ l ∈ ys, l.length = w) →
        ys.foldl (fun n l => min n l.length) w = w := by
      intro ys
      induction ys with
      | nil => intro _; rfl
      | cons y ys ih =>
        intro hy
        rw [List.foldl_cons, hy y (by simp), min_self]
        exact ih (fun l hl => hy l (by simp [hl]))
    exact this xs (fun l hl => hw l (by simp [hl]))

theorem zipWidth_lt {α : Type} (ls : List (List α)) (k : Nat)
    (hne : ls ≠ []) (h : ∀ l ∈ ls, k < l.length) : k < zipWidth ls := by
  cases ls with
  | nil => exact absurd rfl hne
  | cons x xs =>
    show k < List.foldl (fun n l => min n l.length) x.length xs
    have : ∀ (ys : List (List α)) (n : Nat), k < n →
        (∀ l ∈ ys, k < l.length) →
        k < ys.foldl (fun n l => min n l.length) n := by
      intro ys
      induction ys with
      | nil => intro n hn _; exact hn
      | cons y ys ih =>
        intro n hn hy
        rw [List.foldl_cons]
        exact ih (min n y.length) (lt_min hn (hy y (by simp)))
          (fun l hl => hy l (by simp [hl]))
    exact this xs x.length (h x (by simp)) (fun l hl => h l (by simp [hl]))

theorem getD_range {w c : Nat} (h : c < w) (d : Nat) :
    (List.range w).getD c d = c := by
  rw [List.getD_eq_getElem?_getD, List.getElem?_range h]
  rfl

theorem zipT_getD {α : Type} (d : α) (ls : List (List α)) (c : Nat)
    (h : c < zipWidth ls) :
    (zipT d ls).getD c [] = ls.map (fun row => row.getD c d) := by
  unfold zipT
  rw [getD_map_lt _ _ _ (by simp [h]) [] 0, getD_range h]

theorem map_range_getD {α : Type} (l : List α) (d : α) :
    (List.range l.length).map (fun i => l.getD i d) = l := by
  apply List.ext_getElem
  · simp
  · intro i h1 h2
    rw [List.getElem_map, List.getElem_range, List.getD_eq_getElem l d h2]

/-- Rebuilding a column token by token via `getD` returns the column. -/
theorem reconstruct_column (col : List (List Token)) (S : Nat)
    (Tf : Nat → Nat) (hlen : col.length = S)
    (hT : ∀ i, i < S → (col.getD i []).length = Tf i) :
    (List.range S).map (fun i => (List.range (Tf i)).map
      (fun j => (col.getD i []).getD j ([] : Token))) = col := by
  subst hlen
  apply List.ext_getElem
  · simp
  · intro i h1 h2
    rw [List.getElem_map, List.getElem_range]
    rw [← hT i (by simpa using h2)]
    rw [show (List.range (col.getD i []).length).map
      (fun j => (col.getD i []).getD j ([] : Token)) = col.getD i []
      from map_range_getD (col.getD i []) []]
    exact List.getD_eq_getElem col [] h2

/-! ## Shape of a well-formed read (claim C8) -/

/-- C8: for a file whose blocks are non-ragged and wide enough for every
requested column, `read` returns a dataset with exactly one sample per
block in every requested column, and at each sample index every column has
the same token count. -/
theorem read_conll_shape (lines : List Line)
    (columns : List (String × Nat)) (delim : Char)
    (hN : 0 < (conllBlocks delim lines).length)
    (_hrect : ∀ b ∈ conllBlocks delim lines, ∀ r ∈ b, ∀ r' ∈ b,
      r.length = r'.length)
    (hcover : ∀ nc ∈ columns, ∀ b ∈ conllBlocks delim lines,
      nc.2 < zipWidth b) :
    ∃ d, read_conll lines columns delim = Except.ok d ∧
      d.length = columns.length ∧
      (∀ p ∈ d, p.2.length = (conllBlocks delim lines).length) ∧
      (∀ p ∈ d, ∀ q ∈ d, ∀ i : Nat,
        (p.2.getD i []).length = (q.2.getD i []).length) := by
  set blocks := conllBlocks delim lines with hblocks
  have hbne : blocks ≠ [] := by
    intro h; rw [h] at hN; simp at hN
  have hLlen : ∀ b ∈ blocks, (zipT ([] : Token) b).length = zipWidth b :=
    fun b _ => zipT_length [] b
  have hcov2 : ∀ nc ∈ columns, nc.2 < (transposedData delim lines).length := by
    intro nc hnc
    rw [transposedData, zipT_length]
    apply zipWidth_lt _ _ (by simpa using hbne)
    intro l hl
    rcases List.mem_map.mp hl with ⟨b, hb, rfl⟩
    rw [zipT_length]
    exact hcover nc hnc b hb
  have hok : read_conll lines columns delim =
      Except.ok (columns.map (fun nc =>
        (nc.1, (transposedData delim lines).getD nc.2 []))) := by
    rcases (read_conll_cases lines columns delim).2 with h | h
    · exact h
    · rcases ((read_conll_cases lines columns delim).1).mp h
        with ⟨nc, hnc, hle⟩
      exact absurd (hcov2 nc hnc) (Nat.not_lt_of_le hle)
  -- the column returned for an in-range index is the per-block column list
  have hcol : ∀ nc ∈ columns,
      (transposedData delim lines).getD nc.2 [] =
        blocks.map (fun b => (zipT ([] : Token) b).getD nc.2 []) := by
    intro nc hnc
    rw [transposedData, zipT_getD]
    · rw [List.map_map]
      rfl
    · rw [show zipWidth ((conllBlocks delim lines).map (zipT []))
        = (transposedData delim lines).length from
        (by rw [transposedData, zipT_length])]
      exact hcov2 nc hnc
  have hcollen : ∀ nc ∈ columns,
      ((transposedData delim lines).getD nc.2 []).length = blocks.length := by
    intro nc hnc
    rw [hcol nc hnc, List.length_map]
  -- token count at sample i equals the i-th block's row count
  have htok : ∀ nc ∈ columns, ∀ i, i < blocks.length →
      (((transposedData delim lines).getD nc.2 []).getD i []).length =
        (blocks.getD i []).length := by
    intro nc hnc i hi
    rw [hcol nc hnc, getD_map_lt _ _ _ hi [] []]
    rw [zipT_getD]
    · rw [List.length_map]
    · exact hcover nc hnc (blocks.getD i []) (getD_mem blocks i [] hi)
  refine ⟨_, hok, by rw [List.length_map], ?_, ?_⟩
  · intro p hp
    rcases List.mem_map.mp hp with ⟨nc, hnc, rfl⟩
    exact hcollen nc hnc
  · intro p hp q hq i
    rcases List.mem_map.mp hp with ⟨nc, hnc, rfl⟩
    rcases List.mem_map.mp hq with ⟨mc, hmc, rfl⟩
    by_cases hi : i < blocks.length
    · rw [htok nc hnc i hi, htok mc hmc i hi]
    · have h1 : ((transposedData delim lines).getD nc.2 []).length ≤ i := by
        rw [hcollen nc hnc]; omega
      have h2 : ((transposedData delim lines).getD mc.2 []).length ≤ i := by
        rw [hcollen mc hmc]; omega
      rw [getD_of_le _ _ _ h1, getD_of_le _ _ _ h2]

/-- Witness for C8: two one-row blocks, two requested columns. -/
theorem read_conll_shape_witness :
    (0 < (conllBlocks '\t'
        [['a', '\t', 'X'], [], ['b', '\t', 'Y']]).length ∧
     (∀ b ∈ conllBlocks '\t' [['a', '\t', 'X'], [], ['b', '\t', 'Y']],
       ∀ r ∈ b, ∀ r' ∈ b, r.length = r'.length) ∧
     (∀ nc ∈ [("w", 0), ("t", 1)],
       ∀ b ∈ conllBlocks '\t' [['a', '\t', 'X'], [], ['b', '\t', 'Y']],
       nc.2 < zipWidth b)) ∧
    (∃ d, read_conll [['a', '\t', 'X'], [], ['b', '\t', 'Y']]
        [("w", 0), ("t", 1)] '\t' = Except.ok d ∧
      d.length = ([("w", 0), ("t", 1)] : List (String × Nat)).length ∧
      (∀ p ∈ d, p.2.length = (conllBlocks '\t'
        [['a', '\t', 'X'], [], ['b', '\t', 'Y']]).length) ∧
      (∀ p ∈ d, ∀ q ∈ d, ∀ i : Nat,
        (p.2.getD i []).length = (q.2.getD i []).length)) :=
  ⟨⟨by decide, by decide, by decide⟩,
   read_conll_shape [['a', '\t', 'X'], [], ['b', '\t', 'Y']]
     [("w", 0), ("t", 1)] '\t' (by decide) (by decide) (by decide)⟩

/-! ## Round-trip helpers (claim C1) -/

theorem lookup_eq_of_nodup {β : Type} (data : List (String × β))
    (hnd : (data.map Prod.fst).Nodup) :
    ∀ p ∈ data, List.lookup p.1 data = some p.2 := by
  induction data with
  | nil => intro p hp; simp at hp
  | cons q rest ih =>
    intro p hp
    obtain ⟨k, v⟩ := q
    rcases List.mem_cons.mp hp with rfl | hp'
    · simp [List.lookup]
    · rw [List.map_cons] at hnd
      have hnd2 := List.nodup_cons.mp hnd
      have hne : p.1 ≠ k := by
        intro he
        have hm : p.1 ∈ rest.map Prod.fst := List.mem_map_of_mem Prod.fst hp'
        rw [he] at hm
        exact hnd2.1 hm
      have hbeq : (p.1 == k) = false := beq_eq_false_iff_ne.mpr hne
      rw [List.lookup, hbeq]
      exact ih hnd2.2 p hp'

theorem parseLine_intercalate (delim : Char) (fs : List (List Char))
    (hne : fs ≠ []) (hnd : ∀ f ∈ fs, delim ∉ f)
    (hf : ∃ f ∈ fs, f ≠ []) :
    parseLine delim (List.intercalate [delim] fs) = fs := by
  have hsplit := List.splitOn_intercalate fs delim hnd hne
  have hint : List.intercalate [delim] fs ≠ [] := by
    intro h
    rw [show ([delim].intercalate fs) = List.intercalate [delim] fs from rfl,
      h] at hsplit
    rcases hf with ⟨f, hfm, hfne⟩
    rw [← hsplit] at hfm
    rw [show List.splitOn delim ([] : List Char) = [[]] from rfl] at hfm
    rw [List.mem_singleton] at hfm
    exact hfne hfm
  unfold parseLine
  rw [if_neg hint]
  exact hsplit

/-- C1 counterexample: the dataset whose single token is the empty string
has consistent per-sample token counts, but its written form is two blank
lines, which read back as zero blocks, so `read` raises instead of
returning the original token values. -/
theorem write_read_roundtrip_counterexample :
    write_conll ([("w", [[[]]])] : Dataset)
      (([("w", [[[]]])] : Dataset).map Prod.fst) '\t' = some [[], []] ∧
    read_conll [[], []]
      (columnsSpecOf (([("w", [[[]]])] : Dataset).map Prod.fst)) '\t' =
      Except.error () ∧
    read_conll [[], []]
      (columnsSpecOf (([("w", [[[]]])] : Dataset).map Prod.fst)) '\t' ≠
      Except.ok ([("w", [[[]]])] : Dataset) := by decide

/-- Evaluation of `write_conll` on a dataset with consistent shapes: the
emitted file is, per sample, one delimiter-joined line per token followed
by a blank line. -/
theorem write_eval (n0 : String) (c0 : List (List Token)) (rest : Dataset)
    (delim : Char)
    (hnd : ((((n0, c0) :: rest) : Dataset).map Prod.fst).Nodup)
    (hcols : ∀ p ∈ (((n0, c0) :: rest) : Dataset), p.2.length = c0.length)
    (htok : ∀ p ∈ (((n0, c0) :: rest) : Dataset), ∀ i, i < c0.length →
      (p.2.getD i []).length = (c0.getD i []).length) :
    write_conll ((n0, c0) :: rest) ((((n0, c0) :: rest) : Dataset).map
      Prod.fst) delim =
      some (((List.range c0.length).map (fun i =>
        ((List.range (c0.getD i []).length).map (fun j =>
          List.intercalate [delim] ((((n0, c0) :: rest) : Dataset).map
            (fun p => (p.2.getD i []).getD j [])))) ++
        [([] : Line)])).flatten) := by
  have hmem0 : ((n0, c0) : String × List (List Token)) ∈
      (((n0, c0) :: rest) : Dataset) := by simp
  have hlk0 : List.lookup n0 (((n0, c0) :: rest) : Dataset) = some c0 :=
    lookup_eq_of_nodup _ hnd (n0, c0) hmem0
  have hrow_eval : ∀ i, i < c0.length → ∀ j, j < (c0.getD i []).length →
      ((((n0, c0) :: rest) : Dataset).map Prod.fst).mapM (fun col => do
        let colData ← List.lookup col (((n0, c0) :: rest) : Dataset)
        let sample ← colData.get? i
        sample.get? j) =
      some ((((n0, c0) :: rest) : Dataset).map
        (fun p => (p.2.getD i []).getD j [])) := by
    intro i hi j hj
    have hpercol : ∀ col ∈ (((n0, c0) :: rest) : Dataset).map Prod.fst,
        (do
          let colData ← List.lookup col (((n0, c0) :: rest) : Dataset)
          let sample ← colData.get? i
          sample.get? j : Option Token) =
        some ((((List.lookup col (((n0, c0) :: rest) : Dataset)).getD
          []).getD i []).getD j []) := by
      intro col hcol
      rcases List.mem_map.mp hcol with ⟨p, hp, rfl⟩
      rw [lookup_eq_of_nodup _ hnd p hp]
      simp only [Option.bind_eq_bind, Option.some_bind, Option.getD_some]
      rw [get?_eq_getD p.2 i [] (by rw [hcols p hp]; exact hi)]
      simp only [Option.some_bind]
      exact get?_eq_getD _ j [] (by rw [htok p hp i hi]; exact hj)
    rw [mapM_some_of _ _ _ hpercol, List.map_map]
    exact congrArg some (List.map_congr_left
      (fun p hp => by simp [lookup_eq_of_nodup _ hnd p hp]))
  have hchunk : ∀ i ∈ List.range c0.length,
      (do
        let rows ← (List.range ((c0 : List (List Token)).getD i
          []).length).mapM (fun token_i =>
          ((((n0, c0) :: rest) : Dataset).map Prod.fst).mapM (fun col => do
            let colData ← List.lookup col (((n0, c0) :: rest) : Dataset)
            let sample ← colData.get? i
            sample.get? token_i))
        pure ((rows.map (List.intercalate [delim])) ++ [([] : Line)]) :
        Option (List Line)) =
      some (((List.range (c0.getD i []).length).map (fun j =>
        List.intercalate [delim] ((((n0, c0) :: rest) : Dataset).map
          (fun p => (p.2.getD i []).getD j [])))) ++ [([] : Line)]) := by
    intro i hi
    have hi' := List.mem_range.mp hi
    have hrows : ∀ j ∈ List.range (c0.getD i []).length,
        ((((n0, c0) :: rest) : Dataset).map Prod.fst).mapM (fun col => do
          let colData ← List.lookup col (((n0, c0) :: rest) : Dataset)
          let sample ← colData.get? i
          sample.get? j) =
        some ((((n0, c0) :: rest) : Dataset).map
          (fun p => (p.2.getD i []).getD j [])) :=
      fun j hj => hrow_eval i hi' j (List.mem_range.mp hj)
    rw [mapM_some_of _ _ _ hrows]
    simp only [Option.bind_eq_bind, Option.some_bind]
    rw [List.map_map]
    rfl
  simp only [Option.bind_eq_bind] at hchunk
  unfold write_conll
  rw [show ((((n0, c0) :: rest) : Dataset).map Prod.fst).head? = some n0
    from rfl]
  simp only [Option.bind_eq_bind, Option.some_bind]
  rw [hlk0]
  simp only [Option.some_bind]
  rw [mapM_some_of _ _ _ hchunk]
  simp only [Option.some_bind]
  rfl

/-- `splitBlocks` over an indexed family of non-empty separator-terminated
blocks recovers the family. -/
theorem splitBlocks_flatten_map {α β : Type} (p : α → Bool) (sep : α)
    (hs : p sep = true) (idx : List β) (bf : β → List α)
    (hb : ∀ i ∈ idx, bf i ≠ [] ∧ ∀ x ∈ bf i, p x = false) :
    splitBlocks p ((idx.map (fun i => bf i ++ [sep])).flatten) =
      idx.map bf := by
  induction idx with
  | nil => rfl
  | cons i idx' ih =>
    rw [List.map_cons, List.flatten_cons, List.map_cons, List.append_assoc]
    rw [show [sep] ++ ((idx'.map (fun i => bf i ++ [sep])).flatten) =
      sep :: ((idx'.map (fun i => bf i ++ [sep])).flatten) from rfl]
    rw [splitBlocks_block_sep p (bf i) (hb i (by simp)).1
      (hb i (by simp)).2 sep hs]
    rw [ih (fun c hc => hb c (by simp [hc]))]

/-- Parsing and regrouping the canonical written lines yields one block per
sample, holding exactly the written field rows. -/
theorem blocks_eval (n0 : String) (c0 : List (List Token)) (rest : Dataset)
    (delim : Char)
    (hcols : ∀ p ∈ (((n0, c0) :: rest) : Dataset), p.2.length = c0.length)
    (htok : ∀ p ∈ (((n0, c0) :: rest) : Dataset), ∀ i, i < c0.length →
      (p.2.getD i []).length = (c0.getD i []).length)
    (hT : ∀ i, i < c0.length → 0 < (c0.getD i []).length)
    (hclean : ∀ p ∈ (((n0, c0) :: rest) : Dataset), ∀ s ∈ p.2, ∀ t ∈ s,
      delim ∉ t)
    (hrow : ∀ i, i < c0.length → ∀ j, j < (c0.getD i []).length →
      ∃ p ∈ (((n0, c0) :: rest) : Dataset),
        pyStrip ((p.2.getD i []).getD j []) ≠ []) :
    conllBlocks delim (((List.range c0.length).map (fun i =>
      ((List.range (c0.getD i []).length).map (fun j =>
        List.intercalate [delim] ((((n0, c0) :: rest) : Dataset).map
          (fun p => (p.2.getD i []).getD j [])))) ++
      [([] : Line)])).flatten) =
    (List.range c0.length).map (fun i =>
      (List.range (c0.getD i []).length).map (fun j =>
        (((n0, c0) :: rest) : Dataset).map
          (fun p => (p.2.getD i []).getD j []))) := by
  have hparse_row : ∀ i, i < c0.length → ∀ j, j < (c0.getD i []).length →
      parseLine delim (List.intercalate [delim]
        ((((n0, c0) :: rest) : Dataset).map
          (fun p => (p.2.getD i []).getD j []))) =
      (((n0, c0) :: rest) : Dataset).map
        (fun p => (p.2.getD i []).getD j []) := by
    intro i hi j hj
    apply parseLine_intercalate
    · simp
    · intro f hf
      rcases List.mem_map.mp hf with ⟨p, hp, rfl⟩
      have hsmem : p.2.getD i [] ∈ p.2 :=
        getD_mem p.2 i [] (by rw [hcols p hp]; exact hi)
      have htmem : (p.2.getD i []).getD j [] ∈ p.2.getD i [] :=
        getD_mem _ j [] (by rw [htok p hp i hi]; exact hj)
      exact hclean p hp _ hsmem _ htmem
    · rcases hrow i hi j hj with ⟨p, hp, hne⟩
      refine ⟨(p.2.getD i []).getD j [],
        List.mem_map_of_mem (fun p => (p.2.getD i []).getD j []) hp, ?_⟩
      intro h
      rw [h] at hne
      exact hne rfl
  have hrow_nonblank : ∀ i, i < c0.length → ∀ j, j < (c0.getD i []).length →
      is_empty_line ((((n0, c0) :: rest) : Dataset).map
        (fun p => (p.2.getD i []).getD j [])) = false := by
    intro i hi j hj
    rcases hrow i hi j hj with ⟨p, hp, hne⟩
    rw [Bool.eq_false_iff]
    intro hall
    exact hne ((is_empty_line_iff _).mp hall _
      (List.mem_map_of_mem (fun p => (p.2.getD i []).getD j []) hp))
  unfold conllBlocks parsedRows
  rw [List.map_flatten, List.map_map]
  have hchunkparse : (List.range c0.length).map ((List.map (parseLine delim)) ∘
      (fun i => ((List.range (c0.getD i []).length).map (fun j =>
        List.intercalate [delim] ((((n0, c0) :: rest) : Dataset).map
          (fun p => (p.2.getD i []).getD j [])))) ++ [([] : Line)])) =
      (List.range c0.length).map (fun i =>
        ((List.range (c0.getD i []).length).map (fun j =>
          (((n0, c0) :: rest) : Dataset).map
            (fun p => (p.2.getD i []).getD j []))) ++
        [([] : List (List Char))]) := by
    apply List.map_congr_left
    intro i hi
    have hi' := List.mem_range.mp hi
    simp only [Function.comp, List.map_append, List.map_map]
    congr 1
    apply List.map_congr_left
    intro j hj
    exact hparse_row i hi' j (List.mem_range.mp hj)
  rw [hchunkparse]
  rw [splitBlocks_flatten_map is_empty_line ([] : List (List Char)) rfl
    (List.range c0.length) _ ?_]
  intro i hi
  have hi' := List.mem_range.mp hi
  constructor
  · intro h
    have hlen := congrArg List.length h
    rw [List.length_map, List.length_range, List.length_nil] at hlen
    have hTi := hT i hi'
    omega
  · intro x hx
    rcases List.mem_map.mp hx with ⟨j, hj, rfl⟩
    exact hrow_nonblank i hi' j (List.mem_range.mp hj)

/-- Reading back any file whose parsed blocks are the written field rows
reproduces the dataset. -/
theorem read_eval (n0 : String) (c0 : List (List Token)) (rest : Dataset)
    (delim : Char) (lines : List Line)
    (hcols : ∀ p ∈ (((n0, c0) :: rest) : Dataset), p.2.length = c0.length)
    (htok : ∀ p ∈ (((n0, c0) :: rest) : Dataset), ∀ i, i < c0.length →
      (p.2.getD i []).length = (c0.getD i []).length)
    (hS : 0 < c0.length)
    (hT : ∀ i, i < c0.length → 0 < (c0.getD i []).length)
    (hblocks : conllBlocks delim lines = (List.range c0.length).map (fun i =>
      (List.range (c0.getD i []).length).map (fun j =>
        (((n0, c0) :: rest) : Dataset).map (fun p => (p.2.getD i []).getD j [])))) :
    read_conll lines (columnsSpecOf ((((n0, c0) :: rest) : Dataset).map Prod.fst)) delim =
      Except.ok ((n0, c0) :: rest) := by
  have hblen : (conllBlocks delim lines).length = c0.length := by
    rw [hblocks, List.length_map, List.length_range]
  have hBRwidth : ∀ i, i < c0.length →
      zipWidth ((List.range (c0.getD i []).length).map (fun j =>
        (((n0, c0) :: rest) : Dataset).map (fun p => (p.2.getD i []).getD j []))) = (((n0, c0) :: rest) : Dataset).length := by
    intro i hi
    apply zipWidth_of_uniform
    · intro h
      have hl := congrArg List.length h
      rw [List.length_map, List.length_range, List.length_nil] at hl
      have := hT i hi
      omega
    · intro r hr
      rcases List.mem_map.mp hr with ⟨j, hj, rfl⟩
      rw [List.length_map]
  have huniform : ∀ bl ∈ (conllBlocks delim lines).map (zipT ([] : Token)),
      bl.length = (((n0, c0) :: rest) : Dataset).length := by
    intro bl hbl
    rcases List.mem_map.mp hbl with ⟨b, hb, rfl⟩
    rw [hblocks] at hb
    rcases List.mem_map.mp hb with ⟨i, hi, rfl⟩
    rw [zipT_length]
    exact hBRwidth i (List.mem_range.mp hi)
  have hne2 : (conllBlocks delim lines).map (zipT ([] : Token)) ≠ [] := by
    intro h
    have hl := congrArg List.length h
    rw [List.length_map, hblen, List.length_nil] at hl
    omega
  have hW2 : zipWidth ((conllBlocks delim lines).map (zipT ([] : Token))) =
      (((n0, c0) :: rest) : Dataset).length := zipWidth_of_uniform _ _ hne2 huniform
  have htlen : (transposedData delim lines).length = (((n0, c0) :: rest) : Dataset).length := by
    unfold transposedData
    rw [zipT_length]
    exact hW2
  have hcov : ∀ nc ∈ columnsSpecOf ((((n0, c0) :: rest) : Dataset).map Prod.fst),
      nc.2 < (transposedData delim lines).length := by
    intro nc hnc
    unfold columnsSpecOf at hnc
    rcases List.mem_map.mp hnc with ⟨q, hq, rfl⟩
    rw [htlen]
    have hqlt := mem_enum_lt _ q hq
    rw [List.length_map] at hqlt
    exact hqlt
  have hok : read_conll lines (columnsSpecOf ((((n0, c0) :: rest) : Dataset).map Prod.fst)) delim =
      Except.ok ((columnsSpecOf ((((n0, c0) :: rest) : Dataset).map Prod.fst)).map (fun nc =>
        (nc.1, (transposedData delim lines).getD nc.2 []))) := by
    rcases (read_conll_cases lines (columnsSpecOf ((((n0, c0) :: rest) : Dataset).map Prod.fst))
      delim).2 with h | h
    · exact h
    · rcases ((read_conll_cases lines (columnsSpecOf ((((n0, c0) :: rest) : Dataset).map Prod.fst))
        delim).1).mp h with ⟨nc, hnc, hle⟩
      exact absurd (hcov nc hnc) (Nat.not_lt_of_le hle)
  have hcolk : ∀ k, k < (((n0, c0) :: rest) : Dataset).length →
      (transposedData delim lines).getD k [] =
        ((((n0, c0) :: rest) : Dataset).getD k ("", [])).2 := by
    intro k hk
    have hkmem : (((n0, c0) :: rest) : Dataset).getD k ("", []) ∈ (((n0, c0) :: rest) : Dataset) :=
      getD_mem (((n0, c0) :: rest) : Dataset) k ("", []) hk
    unfold transposedData
    rw [zipT_getD _ _ k (by rw [hW2]; exact hk)]
    rw [hblocks]
    simp only [List.map_map]
    have hpt : ∀ i ∈ List.range c0.length,
        ((fun row => row.getD k ([] : List Token)) ∘ (zipT ([] : Token) ∘
          (fun i => (List.range (c0.getD i []).length).map (fun j =>
            (((n0, c0) :: rest) : Dataset).map (fun p => (p.2.getD i []).getD j []))))) i =
        (List.range (c0.getD i []).length).map (fun j =>
          (((((n0, c0) :: rest) : Dataset).getD k ("", [])).2.getD i []).getD j []) := by
      intro i hi
      have hi' := List.mem_range.mp hi
      simp only [Function.comp]
      rw [zipT_getD _ _ k (by rw [hBRwidth i hi']; exact hk)]
      rw [List.map_map]
      apply List.map_congr_left
      intro j hj
      simp only [Function.comp]
      rw [getD_map_lt (fun p => (p.2.getD i []).getD j []) (((n0, c0) :: rest) : Dataset) k hk
        [] ("", [])]
    rw [List.map_congr_left hpt]
    exact reconstruct_column ((((n0, c0) :: rest) : Dataset).getD k ("", [])).2 c0.length _
      (hcols _ hkmem) (fun i hi => htok _ hkmem i hi)
  rw [hok]
  apply congrArg Except.ok
  apply List.ext_getElem
  · rw [List.length_map]
    unfold columnsSpecOf
    rw [List.length_map, List.enum_length, List.length_map]
  · intro k h1 h2
    simp only [columnsSpecOf, List.getElem_map, List.getElem_enum]
    rw [hcolk k h2]
    rw [List.getD_eq_getElem (((n0, c0) :: rest) : Dataset) ("", []) h2]

/-- C1 (amended): writing a Corpus Dataset with `write` then reading it
back with `read` (column spec mapping each name to its emitted position,
same delimiter) reproduces the original token values exactly, for any
dataset with consistent per-sample token counts across columns that also
has: at least one column with distinct names, at least one sample, at
least one token per sample, no delimiter/newline/carriage-return inside a
token, and in every token row at least one field that does not trim to the
empty string.  (The unamended universal claim fails: see the
counterexample, where the written file collapses to blank lines.) -/
theorem write_read_roundtrip (data : Dataset) (delim : Char)
    (hne : data ≠ [])
    (hnd : (data.map Prod.fst).Nodup)
    (hcols : ∀ p ∈ data, p.2.length = (data.headD ("", [])).2.length)
    (htok : ∀ p ∈ data, ∀ i, i < (data.headD ("", [])).2.length →
      (p.2.getD i []).length = ((data.headD ("", [])).2.getD i []).length)
    (hS : 0 < (data.headD ("", [])).2.length)
    (hT : ∀ i, i < (data.headD ("", [])).2.length →
      0 < ((data.headD ("", [])).2.getD i []).length)
    (hclean : ∀ p ∈ data, ∀ s ∈ p.2, ∀ t ∈ s,
      delim ∉ t ∧ '\n' ∉ t ∧ '\r' ∉ t)
    (hrow : ∀ i, i < (data.headD ("", [])).2.length →
      ∀ j, j < ((data.headD ("", [])).2.getD i []).length →
      ∃ p ∈ data, pyStrip ((p.2.getD i []).getD j []) ≠ []) :
    ∃ L, write_conll data (data.map Prod.fst) delim = some L ∧
      read_conll L (columnsSpecOf (data.map Prod.fst)) delim =
        Except.ok data := by
  cases data with
  | nil => exact absurd rfl hne
  | cons d0 rest =>
    obtain ⟨n0, c0⟩ := d0
    simp only [List.headD_cons] at hcols htok hS hT hrow
    refine ⟨_, write_eval n0 c0 rest delim hnd hcols htok, ?_⟩
    exact read_eval n0 c0 rest delim _ hcols htok hS hT
      (blocks_eval n0 c0 rest delim hcols htok hT
        (fun p hp s hs t ht => (hclean p hp s hs t ht).1) hrow)

/-- Witness for C1 at `sampleData`. -/
theorem write_read_roundtrip_witness :
    ((sampleData ≠ []) ∧
     (sampleData.map Prod.fst).Nodup ∧
     (∀ p ∈ sampleData, p.2.length = (sampleData.headD ("", [])).2.length) ∧
     (∀ p ∈ sampleData, ∀ i, i < (sampleData.headD ("", [])).2.length →
       (p.2.getD i []).length =
         ((sampleData.headD ("", [])).2.getD i []).length) ∧
     0 < (sampleData.headD ("", [])).2.length ∧
     (∀ i, i < (sampleData.headD ("", [])).2.length →
       0 < ((sampleData.headD ("", [])).2.getD i []).length) ∧
     (∀ p ∈ sampleData, ∀ s ∈ p.2, ∀ t ∈ s,
       '\t' ∉ t ∧ '\n' ∉ t ∧ '\r' ∉ t) ∧
     (∀ i, i < (sampleData.headD ("", [])).2.length →
       ∀ j, j < ((sampleData.headD ("", [])).2.getD i []).length →
       ∃ p ∈ sampleData, pyStrip ((p.2.getD i []).getD j []) ≠ [])) ∧
    (∃ L, write_conll sampleData (sampleData.map Prod.fst) '\t' = some L ∧
      read_conll L (columnsSpecOf (sampleData.map Prod.fst)) '\t' =
        Except.ok sampleData) :=
  ⟨⟨by decide, by decide, by decide, by decide, by decide, by decide,
    by decide, by decide⟩,
   write_read_roundtrip sampleData '\t' (by decide) (by decide) (by decide)
     (by decide) (by decide) (by decide) (by decide) (by decide)⟩

/-! ## Stable-sort lemmas (claim C10) -/

theorem insertLe_perm {α : Type} (le : α → α → Bool) (x : α) (l : List α) :
    List.Perm (insertLe le x l) (x :: l) := by
  induction l with
  | nil => exact List.Perm.refl _
  | cons y ys ih =>
    unfold insertLe
    by_cases h : le y x = true
    · rw [if_pos h]
      exact (ih.cons y).trans (List.Perm.swap x y ys)
    · rw [if_neg h]

theorem pySorted_perm {α : Type} (le : α → α → Bool) (l : List α) :
    List.Perm (pySorted le l) l := by
  induction l with
  | nil => exact List.Perm.refl _
  | cons x xs ih =>
    exact (insertLe_perm le x (pySorted le xs)).trans (ih.cons x)

theorem insertLe_sorted {α : Type} (le : α → α → Bool)
    (htot : ∀ a b, le a b = true ∨ le b a = true)
    (htrans : ∀ a b c, le a b = true → le b c = true → le a c = true)
    (x : α) (l : List α) (hl : l.Sorted (fun a b => le a b = true)) :
    (insertLe le x l).Sorted (fun a b => le a b = true) := by
  induction l with
  | nil => simp [insertLe]
  | cons y ys ih =>
    rcases List.sorted_cons.mp hl with ⟨hy, hys⟩
    unfold insertLe
    by_cases h : le y x = true
    · rw [if_pos h]
      apply List.sorted_cons.mpr
      refine ⟨?_, ih hys⟩
      intro b hb
      rcases List.mem_cons.mp ((insertLe_perm le x ys).mem_iff.mp hb)
        with rfl | h1
      · exact h
      · exact hy b h1
    · rw [if_neg h]
      have hxy : le x y = true := by
        rcases htot x y with h1 | h1
        · exact h1
        · exact absurd h1 h
      apply List.sorted_cons.mpr
      refine ⟨?_, hl⟩
      intro b hb
      rcases List.mem_cons.mp hb with rfl | h1
      · exact hxy
      · exact htrans x y b hxy (hy b h1)

theorem pySorted_sorted {α : Type} (le : α → α → Bool)
    (htot : ∀ a b, le a b = true ∨ le b a = true)
    (htrans : ∀ a b c, le a b = true → le b c = true → le a c = true)
    (l : List α) :
    (pySorted le l).Sorted (fun a b => le a b = true) := by
  induction l with
  | nil => simp [pySorted]
  | cons x xs ih => exact insertLe_sorted le htot htrans x (pySorted le xs) ih

theorem lookup_isSome_of_mem_keys {β : Type} (l : List (String × β))
    (c : String) (hc : c ∈ l.map Prod.fst) :
    (List.lookup c l).isSome = true := by
  induction l with
  | nil => simp at hc
  | cons q rest ih =>
    obtain ⟨k, v⟩ := q
    rw [List.map_cons] at hc
    by_cases hq : c = k
    · subst hq
      rw [List.lookup, beq_self_eq_true]
      rfl
    · have hc2 : c ∈ rest.map Prod.fst := by
        rcases List.mem_cons.mp hc with h | h
        · exact absurd h hq
        · exact h
      rw [List.lookup, beq_eq_false_iff_ne.mpr hq]
      exact ih hc2

theorem flatten_map_singleton {α β : Type} (h : α → β) (l : List α) :
    (l.map (fun c => [h c])).flatten = l.map h := by
  induction l with
  | nil => rfl
  | cons x xs ih => simp [ih]

/-- C10: with no explicit class list and `sort_by_support=True`, the
non-aggregate rows come first ordered by non-increasing support (a stable
descending sort of the non-aggregate classes), and the "macro avg" and
"micro avg" rows are appended last regardless of their own support values,
with a blank separator row immediately before the "macro avg" row. -/
theorem printcr_sort_by_support (report : Report)
    (hmac : (reportLookup report "macro avg").isSome = true)
    (hmic : (reportLookup report "micro avg").isSome = true) :
    printcr report none true = Except.ok
      (((pySorted (fun a b =>
      decide (supportOf report b ≤ supportOf report a))
      ((report.map Prod.fst).filter
        (fun k => !(k == "macro avg" || k == "micro avg")))).map
          (fun c => rowFor c ((reportLookup report c).getD []))) ++
        ([] : Row) ::
        [rowFor "macro avg" ((reportLookup report "macro avg").getD []),
         rowFor "micro avg" ((reportLookup report "micro avg").getD [])]) ∧
    ((pySorted (fun a b =>
      decide (supportOf report b ≤ supportOf report a))
      ((report.map Prod.fst).filter
        (fun k => !(k == "macro avg" || k == "micro avg")))).map (supportOf report)).Sorted (fun a b => b ≤ a) ∧
    List.Perm (pySorted (fun a b =>
      decide (supportOf report b ≤ supportOf report a))
      ((report.map Prod.fst).filter
        (fun k => !(k == "macro avg" || k == "micro avg"))))
      ((report.map Prod.fst).filter
      (fun k => !(k == "macro avg" || k == "micro avg"))) ∧
    "macro avg" ∉ (pySorted (fun a b =>
      decide (supportOf report b ≤ supportOf report a))
      ((report.map Prod.fst).filter
        (fun k => !(k == "macro avg" || k == "micro avg")))) ∧
    "micro avg" ∉ (pySorted (fun a b =>
      decide (supportOf report b ≤ supportOf report a))
      ((report.map Prod.fst).filter
        (fun k => !(k == "macro avg" || k == "micro avg")))) := by
  set leS : String → String → Bool :=
    fun a b => decide (supportOf report b ≤ supportOf report a) with hleS
  set ks : List String := (report.map Prod.fst).filter
    (fun k => !(k == "macro avg" || k == "micro avg")) with hks
  have htot : ∀ a b, leS a b = true ∨ leS b a = true := by
    intro a b
    rcases le_total (supportOf report b) (supportOf report a) with h | h
    · left; exact decide_eq_true h
    · right; exact decide_eq_true h
  have htrans : ∀ a b c, leS a b = true → leS b c = true →
      leS a c = true := by
    intro a b c h1 h2
    exact decide_eq_true
      (le_trans (of_decide_eq_true h2) (of_decide_eq_true h1))
  have hperm := pySorted_perm leS ks
  have hmacnot : "macro avg" ∉ pySorted leS ks := by
    intro h
    have h2 := (hperm.mem_iff).mp h
    rcases List.mem_filter.mp h2 with ⟨_, hcond⟩
    simp at hcond
  have hmicnot : "micro avg" ∉ pySorted leS ks := by
    intro h
    have h2 := (hperm.mem_iff).mp h
    rcases List.mem_filter.mp h2 with ⟨_, hcond⟩
    simp at hcond
  have hmicnot2 : "micro avg" ∉ pySorted leS ks ++ ["macro avg"] := by
    intro h
    rcases List.mem_append.mp h with h1 | h1
    · exact hmicnot h1
    · rw [List.mem_singleton] at h1
      exact absurd h1 (by decide)
  refine ⟨?_, ?_, hperm, hmacnot, hmicnot⟩
  · show printcr report none true = _
    unfold printcr
    show (do
      let classes2 := if "macro avg" ∈ pySorted leS ks then pySorted leS ks
        else pySorted leS ks ++ ["macro avg"]
      let classes3 := if "micro avg" ∈ classes2 then classes2
        else classes2 ++ ["micro avg"]
      let rowChunks ← classes3.mapM (fun c =>
        match reportLookup report c with
        | none => Except.error ()
        | some meas => Except.ok ((if c = "macro avg" then [([] : Row)]
            else []) ++ [rowFor c meas]))
      pure rowChunks.flatten : Except Unit (List Row)) = _
    rw [if_neg hmacnot]
    show (do
      let classes3 := if "micro avg" ∈ pySorted leS ks ++ ["macro avg"]
        then pySorted leS ks ++ ["macro avg"]
        else (pySorted leS ks ++ ["macro avg"]) ++ ["micro avg"]
      let rowChunks ← classes3.mapM (fun c =>
        match reportLookup report c with
        | none => Except.error ()
        | some meas => Except.ok ((if c = "macro avg" then [([] : Row)]
            else []) ++ [rowFor c meas]))
      pure rowChunks.flatten : Except Unit (List Row)) = _
    rw [if_neg hmicnot2]
    have hclasses : ((pySorted leS ks ++ ["macro avg"]) ++ ["micro avg"]) =
        pySorted leS ks ++ ["macro avg", "micro avg"] := by
      rw [List.append_assoc]
      rfl
    rw [hclasses]
    have hF : ∀ c ∈ pySorted leS ks ++ ["macro avg", "micro avg"],
        (fun c => match reportLookup report c with
          | none => Except.error ()
          | some meas => Except.ok ((if c = "macro avg" then [([] : Row)]
              else []) ++ [rowFor c meas])) c =
        Except.ok ((if c = "macro avg" then [([] : Row)] else []) ++
          [rowFor c ((reportLookup report c).getD [])]) := by
      intro c hc
      have hsome : (reportLookup report c).isSome = true := by
        rcases List.mem_append.mp hc with h1 | h1
        · have h2 := (hperm.mem_iff).mp h1
          exact lookup_isSome_of_mem_keys report c (List.mem_filter.mp h2).1
        · rcases List.mem_cons.mp h1 with rfl | h3
          · exact hmac
          · rw [List.mem_singleton] at h3
            subst h3
            exact hmic
      rcases Option.isSome_iff_exists.mp hsome with ⟨m, hm⟩
      show (match reportLookup report c with
        | none => Except.error ()
        | some meas => Except.ok ((if c = "macro avg" then [([] : Row)]
            else []) ++ [rowFor c meas])) = _
      rw [hm]
      rfl
    show ((pySorted leS ks ++ ["macro avg", "micro avg"]).mapM (fun c =>
        match reportLookup report c with
        | none => Except.error ()
        | some meas => Except.ok ((if c = "macro avg" then [([] : Row)]
            else []) ++ [rowFor c meas])) >>= fun rowChunks =>
      pure rowChunks.flatten) = _
    rw [mapM_ok_of _ _ _ hF]
    show Except.ok (((pySorted leS ks ++
      ["macro avg", "micro avg"]).map (fun c =>
        (if c = "macro avg" then [([] : Row)] else []) ++
        [rowFor c ((reportLookup report c).getD [])])).flatten) = _
    apply congrArg Except.ok
    rw [List.map_append, List.flatten_append]
    have hcong : ∀ c ∈ pySorted leS ks,
        (if c = "macro avg" then [([] : Row)] else []) ++
          [rowFor c ((reportLookup report c).getD [])] =
        [rowFor c ((reportLookup report c).getD [])] := by
      intro c hc
      have hcne : ¬ c = "macro avg" := by
        intro hceq
        subst hceq
        exact hmacnot hc
      simp only [if_neg hcne, List.nil_append]
    have hleft : ((pySorted leS ks).map (fun c =>
        (if c = "macro avg" then [([] : Row)] else []) ++
        [rowFor c ((reportLookup report c).getD [])])).flatten =
        (pySorted leS ks).map
          (fun c => rowFor c ((reportLookup report c).getD [])) := by
      rw [List.map_congr_left hcong]
      exact flatten_map_singleton _ _
    rw [hleft]
    congr 1
  · have hsorted := pySorted_sorted leS htot htrans ks
    apply List.Pairwise.map
    · intro a b hab
      exact of_decide_eq_true hab
    · exact hsorted

/-- Witness for C10 at `sampleReport`. -/
theorem printcr_sort_by_support_witness :
    ((reportLookup sampleReport "macro avg").isSome = true ∧
     (reportLookup sampleReport "micro avg").isSome = true) ∧
    "macro avg" ∉ (pySorted (fun a b =>
      decide (supportOf sampleReport b ≤ supportOf sampleReport a))
      ((sampleReport.map Prod.fst).filter
        (fun k => !(k == "macro avg" || k == "micro avg")))) :=
  ⟨⟨by decide, by decide⟩,
   (printcr_sort_by_support sampleReport (by decide) (by decide)).2.2.2.1⟩

end NerUtils
